import Mathlib

/-!
Verification of the tbraid braid executor (src/tbraid.py) against its
natural-language specification.  Python values are shallowly embedded as the
inductive type PyVal; Python dicts are insertion-ordered association lists;
the name stack (tablestack) is a list of frames looked up from the top
(last element) down, exactly as the source's index loop does; the effectful
parts of the executor (threads spawned by run, real-time waiting, user
callables) are abstracted by an explicit oracle Env, while every pure
computation is translated line by line from the source.
-/

/-- Embedding of the Python values the executor manipulates.  Callables are
opaque references identified by a number; dicts keep insertion order. -/
inductive PyVal where
  | none
  | bool (b : Bool)
  | int (n : Int)
  | str (s : String)
  | list (xs : List PyVal)
  | dict (es : List (String × PyVal))
  | callable (id : Nat)

/-- Python truthiness of a value (bool(v)). -/
def pyTruthy : PyVal → Bool
  | .none => false
  | .bool b => b
  | .int n => n != 0
  | .str s => s != ""
  | .list xs => !xs.isEmpty
  | .dict es => !es.isEmpty
  | .callable _ => true

def isNoneB : PyVal → Bool
  | .none => true
  | _ => false

def isDictB : PyVal → Bool
  | .dict _ => true
  | _ => false

def isListB : PyVal → Bool
  | .list _ => true
  | _ => false

def isCallableB : PyVal → Bool
  | .callable _ => true
  | _ => false

/-- A string starting with the character @ (source: type(a) is str and
len(a) and a[0] == '@'), read off the character data. -/
def isAtStrB : PyVal → Bool
  | .str s =>
    (match s.data with
      | c :: _ => c == '@'
      | [] => false)
  | _ => false

/-- Python's k[0] == '$' directive-key test, read off the character data
(an empty key, on which Python would raise IndexError, counts as
non-directive). -/
def isDollarKey (k : String) : Bool :=
  match k.data with
  | c :: _ => c == '$'
  | [] => false

/-- Python str.strip() on character data: drop whitespace from both ends. -/
def pyStripChars (cs : List Char) : List Char :=
  ((cs.dropWhile Char.isWhitespace).reverse.dropWhile Char.isWhitespace).reverse

/-- Python str.split(',') over character data; the empty string yields
a single empty token, exactly as in Python. -/
def splitCommaAux : List Char → List Char → List String
  | [], acc => [String.mk acc.reverse]
  | c :: rest, acc =>
    if c == ',' then String.mk acc.reverse :: splitCommaAux rest []
    else splitCommaAux rest (c :: acc)

/-- a.strip()[1:].split(',') of the literal handler (line 178). -/
def atTokens (s : String) : List String :=
  splitCommaAux ((pyStripChars s.data).drop 1) []

/-- Key presence in an insertion-ordered dict (Python: k in d). -/
def dhasKey (es : List (String × PyVal)) (k : String) : Bool :=
  es.any (fun e => e.1 == k)

/-- d[k] for a dict, as an Option (none models KeyError). -/
def dGet? (es : List (String × PyVal)) (k : String) : Option PyVal :=
  (es.find? (fun e => e.1 == k)).map (fun e => e.2)

/-- d[k] = v on a dict: replace in place when the key exists, else append
(Python dict insertion-order semantics). -/
def dSet (es : List (String × PyVal)) (k : String) (v : PyVal) : List (String × PyVal) :=
  if dhasKey es k then es.map (fun e => if e.1 == k then (k, v) else e)
  else es ++ [(k, v)]

/-- del d[k] on a dict. -/
def dDel (es : List (String × PyVal)) (k : String) : List (String × PyVal) :=
  es.filter (fun e => !(e.1 == k))

/-- Source _dhas (tbraid.py lines 19-24): true when the value is dict-like
and contains the key; any failure (no keys attribute) yields False.  Note
this tests key PRESENCE, not truthiness of the stored value. -/
def dhas : PyVal → String → Bool
  | .dict es, k => dhasKey es k
  | _, _ => false

/-- One frame of the name stack: the visible mapping of a dict-like. -/
abbrev Frame := List (String × PyVal)

/-- tablestack._stack: frames from bottom (head) to top (last). -/
abbrev TStack := List Frame

def frameHas (f : Frame) (k : String) : Bool :=
  f.any (fun e => e.1 == k)

def frameGet? (f : Frame) (k : String) : Option PyVal :=
  (f.find? (fun e => e.1 == k)).map (fun e => e.2)

/-- Scan xs from index n-1 down to 0 and return the first element
satisfying p, exactly like the source's descending-range loops in
tablestack.__getitem__ and _find_matchfunc. -/
def downFind {α : Type} (p : α → Bool) (xs : List α) : Nat → Option α
  | 0 => Option.none
  | i + 1 =>
    match xs.get? i with
    | Option.some x => if p x then Option.some x else downFind p xs i
    | Option.none => downFind p xs i

/-- tablestack.__getitem__ (lines 73-78): walk the stack from the top
frame down; the first frame containing the key supplies the value; none
models the KeyError raised after the loop. -/
def tsGetItem (s : TStack) (k : String) : Option PyVal :=
  match downFind (fun f => frameHas f k) s s.length with
  | Option.some f => frameGet? f k
  | Option.none => Option.none

/-- tablestack.__contains__ (lines 67-71): not not self[k], with KeyError
mapped to False. -/
def tsContains (s : TStack) (k : String) : Bool :=
  match tsGetItem s k with
  | Option.some v => pyTruthy v
  | Option.none => false

/-- tablestack.__setitem__ (lines 80-81): write into the top frame. -/
def tsSet : TStack → String → PyVal → TStack
  | [], _, _ => []
  | [f], k, v => [dSet f k v]
  | f :: g :: rest, k, v => f :: tsSet (g :: rest) k v

/-- The claim-side description of lookup: walk frames from top to bottom
and return the first value found for k. -/
def topdownLookup (s : TStack) (k : String) : Option PyVal :=
  s.reverse.findSome? (fun f => frameGet? f k)

/- ### Lemmas about the descending scan -/

theorem downFind_append_le {α : Type} (p : α → Bool) (xs ys : List α) :
    ∀ n, n ≤ xs.length → downFind p (xs ++ ys) n = downFind p xs n := by
  intro n
  induction n with
  | zero => intro _; rfl
  | succ i ih =>
    intro h
    have hi : i < xs.length := Nat.lt_of_lt_of_le (Nat.lt_succ_self i) h
    have hget : (xs ++ ys).get? i = xs.get? i := List.get?_append hi
    simp only [downFind, hget]
    have := ih (Nat.le_of_lt hi)
    cases hx : xs.get? i with
    | none => simpa [hx] using this
    | some x =>
      by_cases hp : p x
      · simp [hx, hp]
      · simp [hx, hp, this]

theorem downFind_concat {α : Type} (p : α → Bool) (xs : List α) (x : α) :
    downFind p (xs ++ [x]) (xs.length + 1) =
      if p x then Option.some x else downFind p xs xs.length := by
  simp only [downFind, List.get?_concat_length]
  by_cases hp : p x
  · simp [hp]
  · simp [hp, downFind_append_le p xs [x] xs.length (Nat.le_refl _)]

/-- The descending index scan coincides with find? on the reversed list. -/
theorem downFind_eq_reverse_find {α : Type} (p : α → Bool) (xs : List α) :
    downFind p xs xs.length = xs.reverse.find? p := by
  induction xs using List.reverseRecOn with
  | nil => rfl
  | append_singleton xs x ih =>
    rw [List.length_append, List.reverse_append]
    simp only [List.length_singleton, List.reverse_singleton, List.singleton_append,
      List.find?_cons]
    rw [downFind_concat]
    cases hp : p x
    · simpa [hp] using ih
    · simp [hp]

theorem frameHas_eq_isSome (f : Frame) (k : String) :
    frameHas f k = (frameGet? f k).isSome := by
  induction f with
  | nil => rfl
  | cons e rest ih =>
    by_cases h : e.1 == k
    · simp [frameHas, frameGet?, List.find?_cons, h]
    · simp only [frameHas, frameGet?, List.any_cons, List.find?_cons, h] at ih ⊢
      simpa [h] using ih

theorem find_frame_eq_findSome (k : String) (l : List Frame) :
    (match l.find? (fun f => frameHas f k) with
      | Option.some f => frameGet? f k
      | Option.none => Option.none) =
    l.findSome? (fun f => frameGet? f k) := by
  induction l with
  | nil => rfl
  | cons f rest ih =>
    by_cases h : frameHas f k
    · have hs : (frameGet? f k).isSome := by rw [← frameHas_eq_isSome]; exact h
      cases hv : frameGet? f k with
      | none => rw [hv] at hs; simp at hs
      | some v => simp [List.find?_cons, List.findSome?_cons, h, hv]
    · have hs : (frameGet? f k).isSome = false := by
        rw [← frameHas_eq_isSome]; exact eq_false_of_ne_true h
      cases hv : frameGet? f k with
      | none => simpa [List.find?_cons, List.findSome?_cons, h, hv] using ih
      | some v => rw [hv] at hs; simp at hs

/-- The source's descending-index lookup agrees with the claim-side
top-to-bottom description. -/
theorem tsGetItem_eq_topdown (s : TStack) (k : String) :
    tsGetItem s k = topdownLookup s k := by
  unfold tsGetItem topdownLookup
  rw [downFind_eq_reverse_find]
  exact find_frame_eq_findSome k s.reverse

/-- C9: tablestack membership k in s returns the truthiness of the value
found for k by top-to-bottom lookup over the frames, so a key present only
with a falsy value (0, empty string, ...) reports as absent, and a key
contained in no frame reports False. -/
theorem tablestack_contains_truthiness (s : TStack) (k : String) :
    tsContains s k =
      (match topdownLookup s k with
        | Option.some v => pyTruthy v
        | Option.none => false) := by
  unfold tsContains
  rw [tsGetItem_eq_topdown]

/-- Errors of the executor.  fuelOut is a modelling artifact marking an
exhausted recursion budget, not a Python exception. -/
inductive Err where
  | unboundLocal
  | noMatchedFunction
  | waitTimeout
  | keyError (k : String)
  | typeErr
  | assertFail
  | indexErr
  | fuelOut
deriving DecidableEq, Repr

/-- One registered (predicate, handler) pair; handlers are tags of type a,
predicates observe the truthiness of the Python check function. -/
structure MatchEntry (a : Type) where
  pred : PyVal → Bool
  handler : a

/-- Source _find_matchfunc (lines 277-286): scan the registration list
from the last entry down to the first; the first predicate that returns
truthy supplies the handler; otherwise NoMatchedFunctionError. -/
def findMatchfunc {a : Type} (ms : List (MatchEntry a)) (v : PyVal) : Except Err a :=
  match downFind (fun m => m.pred v) ms ms.length with
  | Option.some m => Except.ok m.handler
  | Option.none => Except.error Err.noMatchedFunction

/-- C2: dispatch selects the handler of the last-registered pair whose
predicate returns truthy on the node, scanning registrations from last to
first, and raises NoMatchedFunction when no predicate matches. -/
theorem dispatch_last_registered {a : Type} (ms : List (MatchEntry a)) (v : PyVal) :
    (findMatchfunc ms v =
      match ms.reverse.find? (fun m => m.pred v) with
      | Option.some m => Except.ok m.handler
      | Option.none => Except.error Err.noMatchedFunction) ∧
    ((∀ m ∈ ms, m.pred v = false) → findMatchfunc ms v = Except.error Err.noMatchedFunction) := by
  constructor
  · unfold findMatchfunc
    rw [downFind_eq_reverse_find]
  · intro hnone
    unfold findMatchfunc
    rw [downFind_eq_reverse_find]
    have : ms.reverse.find? (fun m => m.pred v) = Option.none := by
      rw [List.find?_eq_none]
      intro m hm
      simp [hnone m (List.mem_reverse.mp hm)]
    rw [this]

/-- Tags for the seven base handlers registered by tbraid.__init__. -/
inductive HFun where
  | ignore
  | literals
  | object
  | hlist
  | hwait
  | hrun
  | hforeach
deriving DecidableEq, Repr

/-- The base registration list built in tbraid.__init__ (lines 105-132),
in registration order: identity fallback, literal conversions, parallel
dict, sequential list, then the $wait, $run and $foreach directives. -/
def baseMatches : List (MatchEntry HFun) := [
  ⟨fun _ => true, HFun.ignore⟩,
  ⟨fun _ => true, HFun.literals⟩,
  ⟨fun v => isDictB v, HFun.object⟩,
  ⟨fun v => isListB v, HFun.hlist⟩,
  ⟨fun v => isDictB v && dhas v "$wait", HFun.hwait⟩,
  ⟨fun v => isDictB v && dhas v "$run", HFun.hrun⟩,
  ⟨fun v => isDictB v && dhas v "$foreach", HFun.hforeach⟩]

/-- Source _handle_base_special_literals (lines 174-186): a string
starting with @ becomes a $replace to a $wait directive over the
comma-split tokens of the stripped remainder, a callable becomes a
$replace to a $run directive, anything else falls through to the identity
fallback. -/
def specialLiterals (v : PyVal) : PyVal :=
  match v with
  | .str s =>
    if isAtStrB (.str s) then
      .dict [("$replace", .dict [("$wait", .list ((atTokens s).map .str))])]
    else v
  | .callable i => .dict [("$replace", .dict [("$run", .callable i)])]
  | _ => v

/-- Inner loop of the $sub rewrite in _process_step (lines 298-302): walk
the snapshot of the keys; every key not starting with $ is re-inserted as
key:k at the end of the dict and the original entry deleted. -/
def subRenameLoop (key : String) : List String → List (String × PyVal) → List (String × PyVal)
  | [], b => b
  | k :: rest, b =>
    if isDollarKey k then subRenameLoop key rest b
    else subRenameLoop key rest (dDel (dSet b (key ++ ":" ++ k) ((dGet? b k).getD PyVal.none)) k)

/-- The $sub pre-transform of _process_step (lines 297-303): when the node
is a dict that CONTAINS a $sub key (presence via _dhas, not truthiness),
every non-directive key k is renamed to key:k. -/
def subRename (key : String) (v : PyVal) : PyVal :=
  match v with
  | .dict es => if dhasKey es "$sub" then .dict (subRenameLoop key (es.map (fun e => e.1)) es) else v
  | _ => v

/-- Source _autokey (lines 166-168): join the parts and append an
underscore and the freshly incremented counter value newId. -/
def autokey (parts : List String) (newId : Nat) : String :=
  String.join parts ++ "_" ++ toString newId

/-- Python zero-padding '%0wi' % i for a nonnegative i. -/
def padZero (w : Nat) (i : Nat) : String :=
  let s := toString i
  String.mk (List.replicate (w - s.length) '0') ++ s

/-- Body of the per-item loop of _handle_base_foreach (lines 252-260): copy
the node, drop its own $throttle, inherit $throttle from the top name-stack
frame when present there, bind the item as $param and drop $foreach. -/
def foreachChild (es : List (String × PyVal)) (top : Frame) (item : PyVal) : List (String × PyVal) :=
  let b1 := if dhasKey es "$throttle" then dDel es "$throttle" else es
  let b2 := if frameHas top "$throttle" then dSet b1 "$throttle" ((frameGet? top "$throttle").getD PyVal.none) else b1
  let b3 := dSet b2 "$param" item
  dDel b3 "$foreach"

/-- Source _handle_base_foreach (lines 216-263).  newId is the counter
value produced by the _autokey call, defThrottle the braid constructor
throttle; the $foreach iterable must be a materializable sequence (embedded
as a PyVal.list).  Returns the $replace directive containing the fan-out
mapping headed by the wrapper keys $throttle and $sub. -/
def handle_base_foreach (newId : Nat) (defThrottle : PyVal) (v : PyVal) (ts : TStack) : Except Err PyVal :=
  match v with
  | .dict es =>
    match dGet? es "$foreach" with
    | Option.some (.list items) =>
      match ts.getLast? with
      | Option.none => Except.error Err.indexErr
      | Option.some top =>
        let akey := autokey ["foreach:"] newId
        let throt := if dhasKey es "$throttle" then (dGet? es "$throttle").getD PyVal.none else defThrottle
        let kilen := (toString items.length).length
        let ret : List (String × PyVal) :=
          [("$throttle", throt), ("$sub", PyVal.int 1)] ++
          (List.range items.length).map (fun i =>
            (akey ++ ":" ++ padZero kilen i, PyVal.dict (foreachChild es top (items.getD i PyVal.none))))
        Except.ok (.dict [("$replace", .dict ret)])
    | Option.some _ => Except.error Err.typeErr
    | Option.none => Except.error (Err.keyError "$foreach")
  | _ => Except.error Err.typeErr

/-- Oracle for the effectful parts of the executor: invocation of user
callables via $run (call), the spawn-and-barrier outcome of
_handle_base_object (objectRun, covering lines 188-203, whose children run
on other threads), and the blocking self.wait inside _handle_base_wait
(waitCheck, real time).  Everything else is embedded directly. -/
structure Env where
  call : Nat → PyVal → TStack → Except Err PyVal
  objectRun : PyVal → TStack → String → Except Err PyVal
  waitCheck : List PyVal → Except Err Unit

/-- Source _handle_base_wait (lines 265-270): assert $wait holds a list,
barrier on those keys, then return the stack's $result when present by
truthiness-membership, else None. -/
def handleWait (env : Env) (v : PyVal) (ts : TStack) : Except Err PyVal :=
  match v with
  | .dict es =>
    match dGet? es "$wait" with
    | Option.some (.list ks) =>
      match env.waitCheck ks with
      | Except.error e => Except.error e
      | Except.ok _ =>
        Except.ok (match tsGetItem ts "$result" with
          | Option.some r => if pyTruthy r then r else PyVal.none
          | Option.none => PyVal.none)
    | Option.some _ => Except.error Err.assertFail
    | Option.none => Except.error Err.assertFail
  | _ => Except.error Err.assertFail

/-- Source _handle_base_run (lines 272-275): f = a[$run]; return f(a, ts).
Calling a non-callable raises TypeError. -/
def handleRun (env : Env) (v : PyVal) (ts : TStack) : Except Err PyVal :=
  match v with
  | .dict es =>
    match dGet? es "$run" with
    | Option.some (.callable i) => env.call i v ts
    | Option.some _ => Except.error Err.typeErr
    | Option.none => Except.error (Err.keyError "$run")
  | _ => Except.error Err.typeErr

/-- Loop of _handle_base_list (lines 208-214): after the handler pushed the
fresh {$result: None} frame, each item is evaluated by the step processor
against the current stack and the return is written to the top frame's
$result; the final return reads $result back from the stack. -/
def listSteps (step : PyVal → TStack → String → Except Err PyVal) :
    List PyVal → TStack → String → Except Err PyVal
  | [], t2, _ =>
    match tsGetItem t2 "$result" with
    | Option.some r => Except.ok r
    | Option.none => Except.error (Err.keyError "$result")
  | ob :: rest, t2, key =>
    match step ob t2 key with
    | Except.error e => Except.error e
    | Except.ok r => listSteps step rest (tsSet t2 "$result" r) key

/-- Source _handle_base_list (lines 205-214), parameterized by the step
processor it invokes per item (the source calls self._process_step): clone
the incoming stack, push a frame initialized to {$result: None} and run the
items in order. -/
def handle_base_list (step : PyVal → TStack → String → Except Err PyVal)
    (items : List PyVal) (ts : TStack) (key : String) : Except Err PyVal :=
  listSteps step items (ts ++ [[("$result", PyVal.none)]]) key

/-- Work items of the fueled step processor: a node evaluation (the while
loop of _process_step, lastVal holding the val variable of the previous
iteration) or the item loop of a chain. -/
inductive Job where
  | step (a : PyVal) (tstack : TStack) (key : String) (lastVal : Option PyVal)
  | chain (items : List PyVal) (t2 : TStack) (key : String)

/-- Line 291-292 of _process_step: when the node carries $param, evaluate
against a clone of the stack with the $param mapping pushed on top (the
source defers the failure of a non-dict frame to its first lookup; the
model surfaces the TypeError at the push). -/
def paramFrame (a : PyVal) (tstack : TStack) : Except Err TStack :=
  if dhas a "$param" then
    match a with
    | .dict es =>
      match dGet? es "$param" with
      | Option.some (.dict pf) => Except.ok (tstack ++ [pf])
      | Option.some _ => Except.error Err.typeErr
      | Option.none => Except.error (Err.keyError "$param")
    | _ => Except.error Err.typeErr
  else Except.ok tstack

/-- Source _process_step (lines 288-315), closed under the built-in
registry, with a fuel bound standing in for the unbounded Python recursion
(fuelOut never arises for the executions the theorems below speak about).
Per loop iteration: exit returning val when a is None (an initial None hits
the UnboundLocalError of returning the never-assigned val), push a['$param']
as a stack frame when present, apply the $sub renaming, dispatch through
_find_matchfunc and follow a returned {$replace: node} back into the loop.
The chain job is the item loop of _handle_base_list as invoked through
dispatch. -/
def processStepCore (env : Env) (defThrottle : PyVal) (ak : Nat) : Nat → Job → Except Err PyVal
  | 0, _ => Except.error Err.fuelOut
  | fuel + 1, Job.chain items t2 key =>
    match items with
    | [] =>
      (match tsGetItem t2 "$result" with
        | Option.some r => Except.ok r
        | Option.none => Except.error (Err.keyError "$result"))
    | ob :: rest =>
      match processStepCore env defThrottle ak fuel (Job.step ob t2 key Option.none) with
      | Except.error e => Except.error e
      | Except.ok r => processStepCore env defThrottle ak fuel (Job.chain rest (tsSet t2 "$result" r) key)
  | fuel + 1, Job.step a tstack key lastVal =>
    if isNoneB a then
      match lastVal with
      | Option.some r => Except.ok r
      | Option.none => Except.error Err.unboundLocal
    else
      match paramFrame a tstack with
      | Except.error e => Except.error e
      | Except.ok ts =>
        let a2 := subRename key a
        match findMatchfunc baseMatches a2 with
        | Except.error e => Except.error e
        | Except.ok h =>
          match (match h with
                  | HFun.ignore => Except.ok a2
                  | HFun.literals => Except.ok (specialLiterals a2)
                  | HFun.object => env.objectRun a2 ts key
                  | HFun.hlist =>
                    (match a2 with
                      | .list xs => processStepCore env defThrottle ak fuel
                          (Job.chain xs (ts ++ [[("$result", PyVal.none)]]) key)
                      | _ => Except.error Err.typeErr)
                  | HFun.hwait => handleWait env a2 ts
                  | HFun.hrun => handleRun env a2 ts
                  | HFun.hforeach => handle_base_foreach (ak + 1) defThrottle a2 ts : Except Err PyVal) with
          | Except.error e => Except.error e
          | Except.ok val =>
            if dhas val "$replace" then
              processStepCore env defThrottle ak fuel
                (Job.step (match val with
                    | .dict es => (dGet? es "$replace").getD PyVal.none
                    | _ => PyVal.none) tstack key (Option.some val))
            else Except.ok val

/-- A result-table entry {state, value, thread}; the thread handle is
modelled by whether start() was called on it. -/
structure Entry where
  state : String
  value : PyVal
  started : Bool

/-- Source tworker (lines 338-347): evaluate the node via the step
processor; on success write value then state done; on any exception only
the state is set, to error, the value being left as inserted (the except
block swallows the exception after logging). -/
def tworker (res : Except Err PyVal) (e : Entry) : Entry :=
  match res with
  | Except.ok v => { e with value := v, state := "done" }
  | Except.error _ => { e with state := "error" }

/-- The entry inserted by run for each spawned key (lines 358-363). -/
def initEntry : Entry := ⟨"not-started", PyVal.none, false⟩

/-- The same entry after run started its thread (line 368). -/
def startedEntry : Entry := ⟨"not-started", PyVal.none, true⟩

/-- Full life of one worker: run's thread invokes tworker on the step
processor's outcome against the freshly inserted (and started) entry. -/
def workerOutcome (env : Env) (defThrottle : PyVal) (ak : Nat) (fuel : Nat)
    (a : PyVal) (ts : TStack) (key : String) : Entry :=
  tworker (processStepCore env defThrottle ak fuel (Job.step a ts key Option.none)) startedEntry

/-- The result table keyed by thread name. -/
abbrev TTable := List (String × Entry)

def ttGet? (tt : TTable) (k : String) : Option Entry :=
  (tt.find? (fun e => e.1 == k)).map (fun e => e.2)

/-- The special directive keys skipped by run (lines 329-330). -/
def specialKeys : List String :=
  ["$throttle", "$async", "$replace", "$param", "$sub", "$result"]

/-- The insertion loop of run (lines 349-364): iterate the node's items in
order, skip special and $-prefixed keys, raise KeyOverrideAttemptError on a
key already in the table (returning the table as mutated so far, with the
keys added up to that point), otherwise insert a not-started entry. -/
def runSpawnLoop : List (String × PyVal) → TTable → List String → TTable × List String × Option String
  | [], tt, added => (tt, added, Option.none)
  | (k, _) :: rest, tt, added =>
    if specialKeys.contains k then runSpawnLoop rest tt added
    else if isDollarKey k then runSpawnLoop rest tt added
    else if (ttGet? tt k).isSome then (tt, added, Option.some k)
    else runSpawnLoop rest (tt ++ [(k, initEntry)]) (added ++ [k])

/-- The start loop of run (lines 366-368), reached only when no insertion
raised: start the thread of every added key. -/
def startAll (tt : TTable) (added : List String) : TTable :=
  tt.map (fun e => if added.contains e.1 then (e.1, { e.2 with started := true }) else e)

/-- run's table effects (lines 348-369): the insertion loop followed, only
on success, by the start loop; the Option String is the key of a raised
KeyOverrideAttemptError. -/
def tbRun (ob : List (String × PyVal)) (tt : TTable) : TTable × Option String :=
  match runSpawnLoop ob tt [] with
  | (tt2, added, Option.none) => (startAll tt2 added, Option.none)
  | (tt2, _, Option.some k) => (tt2, Option.some k)

/-- The keys of a node that run actually spawns, in iteration order. -/
def spawnKeys (ob : List (String × PyVal)) : List String :=
  (ob.map (fun e => e.1)).filter (fun k => !(specialKeys.contains k) && !(isDollarKey k))

/-- Is this entry state terminal in the sense of the wait loop? -/
def terminalState (s : String) : Bool :=
  s == "done" || s == "error"

/-- One poll of the wait loop body (lines 377-381): recompute kr from the
arguments or, when empty, from the current table's keys, then test whether
the number of keys whose state is done or error equals the number of keys;
a key missing from the table is a KeyError. -/
def pollOnce (tt : TTable) (keys : List String) : Except Err Bool :=
  match (if keys.isEmpty then tt.map (fun e => e.1) else keys).find?
      (fun k => (ttGet? tt k).isNone) with
  | Option.some k => Except.error (Err.keyError k)
  | Option.none =>
    Except.ok ((if keys.isEmpty then tt.map (fun e => e.1) else keys).all (fun k =>
      match ttGet? tt k with
      | Option.some e => terminalState e.state
      | Option.none => false))

/-- Source wait (lines 371-383) over an abstract table history: trace j is
the table contents observed by the j-th poll (the table is concurrently
written by workers); budget is the number of polls the deadline start +
timeout admits at one sleep(interval) per iteration; exhausting it raises
WaitTimeoutError, a successful poll returns (fluently, modelled by the
index of the successful poll). -/
def twaitFrom (trace : Nat → TTable) (keys : List String) : Nat → Nat → Except Err Nat
  | _, 0 => Except.error Err.waitTimeout
  | j, budget + 1 =>
    match pollOnce (trace j) keys with
    | Except.error e => Except.error e
    | Except.ok true => Except.ok j
    | Except.ok false => twaitFrom trace keys (j + 1) budget

/-- wait(keys) from the first poll. -/
def twait (trace : Nat → TTable) (keys : List String) (budget : Nat) : Except Err Nat :=
  twaitFrom trace keys 0 budget

/- ### C1: the chain handler threads $result sequentially -/

/-- Claim-side recursion for a chain: step i is given the cloned stack
whose pushed frame binds $result to the value produced by step i-1 (None
for the first step), and the last value produced is returned (None for the
empty chain). -/
def chainSpec (step : PyVal → TStack → String → Except Err PyVal)
    (ts : TStack) (key : String) : List PyVal → PyVal → Except Err PyVal
  | [], prev => Except.ok prev
  | ob :: rest, prev =>
    match step ob (ts ++ [[("$result", prev)]]) key with
    | Except.error e => Except.error e
    | Except.ok r => chainSpec step ts key rest r

theorem tsSet_concat (l : TStack) (f : Frame) (k : String) (v : PyVal) :
    tsSet (l ++ [f]) k v = l ++ [dSet f k v] := by
  induction l with
  | nil => rfl
  | cons g l ih =>
    cases l with
    | nil => rfl
    | cons g2 l2 => simpa [tsSet] using ih

theorem tsGetItem_concat_self (ts : TStack) (k : String) (v : PyVal) :
    tsGetItem (ts ++ [[(k, v)]]) k = Option.some v := by
  unfold tsGetItem
  have hlen : (ts ++ [[(k, v)]]).length = ts.length + 1 := by simp
  rw [hlen, downFind_concat]
  have hp : frameHas [(k, v)] k = true := by simp [frameHas]
  rw [hp]
  simp [frameGet?, List.find?]

theorem dSet_result_single (prev v : PyVal) :
    dSet [("$result", prev)] "$result" v = [("$result", v)] := rfl

theorem listSteps_eq_chainSpec (step : PyVal → TStack → String → Except Err PyVal)
    (ts : TStack) (key : String) :
    ∀ (items : List PyVal) (prev : PyVal),
      listSteps step items (ts ++ [[("$result", prev)]]) key = chainSpec step ts key items prev := by
  intro items
  induction items with
  | nil =>
    intro prev
    simp [listSteps, chainSpec, tsGetItem_concat_self]
  | cons ob rest ih =>
    intro prev
    simp only [listSteps, chainSpec]
    cases step ob (ts ++ [[("$result", prev)]]) key with
    | error e => rfl
    | ok r =>
      simp only [tsSet_concat, dSet_result_single]
      exact ih r

/-- C1: the chain handler clones the stack, pushes a {$result: None}
frame, runs the items in order through the step processor it is given,
each step observing in $result the value produced by the previous step
(None for the first), and returns the last value produced; the empty chain
returns None. -/
theorem chain_threads_result (step : PyVal → TStack → String → Except Err PyVal)
    (items : List PyVal) (ts : TStack) (key : String) :
    handle_base_list step items ts key = chainSpec step ts key items PyVal.none ∧
    handle_base_list step [] ts key = Except.ok PyVal.none := by
  constructor
  · exact listSteps_eq_chainSpec step ts key items PyVal.none
  · have h := listSteps_eq_chainSpec step ts key [] PyVal.none
    simpa [chainSpec] using h

/- ### C6: worker-boundary exception policy -/

/-- C6: whenever evaluation of a node inside a worker raises, the worker
catches it (tworker is total: it returns an entry rather than re-raising),
and the entry for the worker's key — inserted as {state: not-started,
value: None} and started — ends in state error with its value still None. -/
theorem worker_error_boxes (env : Env) (defThrottle : PyVal) (ak fuel : Nat)
    (a : PyVal) (ts : TStack) (key : String) (err : Err)
    (h : processStepCore env defThrottle ak fuel (Job.step a ts key Option.none) = Except.error err) :
    workerOutcome env defThrottle ak fuel a ts key =
      ⟨"error", PyVal.none, true⟩ := by
  unfold workerOutcome
  rw [h]
  rfl

/-- A concrete benign oracle used by witnesses. -/
def wEnv : Env :=
  ⟨fun _ _ _ => Except.ok (PyVal.int 0),
   fun _ _ _ => Except.ok PyVal.none,
   fun _ => Except.ok ()⟩

theorem worker_error_boxes_witness :
    workerOutcome wEnv (PyVal.int 30) 0 1 PyVal.none [[]] "w" =
      ⟨"error", PyVal.none, true⟩ :=
  worker_error_boxes wEnv (PyVal.int 30) 0 1 PyVal.none [[]] "w" Err.unboundLocal rfl

/- ### C3: the wait barrier -/

theorem pollOnce_true_terminal (tt : TTable) (keys : List String)
    (h : pollOnce tt keys = Except.ok true) :
    ∀ k ∈ (if keys.isEmpty then tt.map (fun e => e.1) else keys),
      ∃ e, ttGet? tt k = Option.some e ∧ (e.state = "done" ∨ e.state = "error") := by
  intro k hk
  unfold pollOnce at h
  cases hfind : (if keys.isEmpty then tt.map (fun e => e.1) else keys).find?
      (fun k => (ttGet? tt k).isNone) with
  | some k2 => rw [hfind] at h; exact absurd h (by simp)
  | none =>
    rw [hfind] at h
    have hterm : (match ttGet? tt k with
        | Option.some e => terminalState e.state
        | Option.none => false) = true :=
      List.all_eq_true.mp (Except.ok.inj h) k hk
    cases he : ttGet? tt k with
    | none => rw [he] at hterm; simp at hterm
    | some e =>
      rw [he] at hterm
      refine ⟨e, rfl, ?_⟩
      have : (e.state == "done" || e.state == "error") = true := hterm
      rcases Bool.or_eq_true_iff.mp this with h1 | h1
      · exact Or.inl (beq_iff_eq.mp h1)
      · exact Or.inr (beq_iff_eq.mp h1)

theorem twaitFrom_ok_poll (trace : Nat → TTable) (keys : List String) :
    ∀ (budget j0 j : Nat), twaitFrom trace keys j0 budget = Except.ok j →
      pollOnce (trace j) keys = Except.ok true := by
  intro budget
  induction budget with
  | zero => intro j0 j h; exact absurd h (by simp [twaitFrom])
  | succ b ih =>
    intro j0 j h
    unfold twaitFrom at h
    cases hp : pollOnce (trace j0) keys with
    | error e => rw [hp] at h; exact absurd h (by simp)
    | ok b2 =>
      rw [hp] at h
      cases b2 with
      | true =>
        have : j0 = j := Except.ok.inj h
        rw [← this]; exact hp
      | false => exact ih (j0 + 1) j h

theorem twaitFrom_timeout (trace : Nat → TTable) (keys : List String) :
    ∀ (budget j0 : Nat),
      (∀ i, i < budget → pollOnce (trace (j0 + i)) keys = Except.ok false) →
      twaitFrom trace keys j0 budget = Except.error Err.waitTimeout := by
  intro budget
  induction budget with
  | zero => intro j0 _; rfl
  | succ b ih =>
    intro j0 hall
    unfold twaitFrom
    have h0 := hall 0 (Nat.succ_pos b)
    rw [Nat.add_zero] at h0
    rw [h0]
    exact ih (j0 + 1) (fun i hi => by
      have h2 := hall (i + 1) (Nat.succ_lt_succ hi)
      have he : j0 + 1 + i = j0 + (i + 1) := by omega
      rw [he]
      exact h2)

/-- C3: wait returns (without timeout) only from a poll in which every
listed key — or, for an empty listing, every key then in the table — has a
terminal state (done or error), so those states hold of the table at
return; and when no poll within the budget allowed by the timeout
succeeds, WaitTimeoutError is raised.  Real time is abstracted: one unit
of budget is one sleep(interval) iteration of the deadline loop. -/
theorem wait_barrier (trace : Nat → TTable) (keys : List String) (budget : Nat) :
    (∀ j, twait trace keys budget = Except.ok j →
      ∀ k ∈ (if keys.isEmpty then (trace j).map (fun e => e.1) else keys),
        ∃ e, ttGet? (trace j) k = Option.some e ∧ (e.state = "done" ∨ e.state = "error")) ∧
    ((∀ i, i < budget → pollOnce (trace i) keys = Except.ok false) →
      twait trace keys budget = Except.error Err.waitTimeout) := by
  constructor
  · intro j hj
    exact pollOnce_true_terminal (trace j) keys (twaitFrom_ok_poll trace keys budget 0 j hj)
  · intro hall
    exact twaitFrom_timeout trace keys budget 0 (fun i hi => by
      simpa using hall i hi)

/-- A one-key, immediately-done table history for the wait witness. -/
def wTrace : Nat → TTable := fun _ => [("k", ⟨"done", PyVal.int 1, true⟩)]

theorem wait_barrier_witness :
    ∃ e, ttGet? (wTrace 0) "k" = Option.some e ∧ (e.state = "done" ∨ e.state = "error") := by
  have h := (wait_barrier wTrace ["k"] 1).1 0 rfl "k"
  exact h (by simp)

/- ### C10: run is not atomic on a key collision -/

theorem ttGet?_append (tt l : TTable) (k : String) :
    ttGet? (tt ++ l) k =
      match ttGet? tt k with
      | Option.some e => Option.some e
      | Option.none => ttGet? l k := by
  unfold ttGet?
  rw [List.find?_append]
  cases h : (tt.find? (fun e => e.1 == k)) with
  | none => simp [Option.or]
  | some e => simp [Option.or]

theorem ttGet?_append_some (tt l : TTable) (k : String)
    (h : (ttGet? tt k).isSome) : (ttGet? (tt ++ l) k).isSome := by
  rw [ttGet?_append]
  cases he : ttGet? tt k with
  | none => rw [he] at h; simp at h
  | some e => simp

theorem ttGet?_snoc_ne (tt : TTable) (p k : String) (en : Entry)
    (h : ttGet? tt k = Option.none) (hne : k ≠ p) :
    ttGet? (tt ++ [(p, en)]) k = Option.none := by
  rw [ttGet?_append, h]
  have hpk : (p == k) = false := by
    simp [Ne.symm hne]
  simp [ttGet?, List.find?, hpk]

theorem spawnKeys_cons (k : String) (v : PyVal) (rest : List (String × PyVal)) :
    spawnKeys ((k, v) :: rest) =
      if !(specialKeys.contains k) && !(isDollarKey k) then k :: spawnKeys rest
      else spawnKeys rest := by
  simp only [spawnKeys, List.map_cons, List.filter_cons]

theorem runSpawnLoop_collision (k : String) (post : List String) :
    ∀ (ob : List (String × PyVal)) (tt : TTable) (added pre : List String),
      spawnKeys ob = pre ++ k :: post →
      (∀ p ∈ pre, ttGet? tt p = Option.none) →
      pre.Nodup →
      (ttGet? tt k).isSome →
      runSpawnLoop ob tt added =
        (tt ++ pre.map (fun p => (p, initEntry)), added ++ pre, Option.some k) := by
  intro ob
  induction ob with
  | nil =>
    intro tt added pre hsplit
    exact absurd hsplit.symm (by simp [spawnKeys])
  | cons e rest ih =>
    obtain ⟨k0, v0⟩ := e
    intro tt added pre hsplit hpre hnd hk
    rw [spawnKeys_cons] at hsplit
    by_cases hp : (!(specialKeys.contains k0) && !(isDollarKey k0)) = true
    · rw [if_pos hp] at hsplit
      have hc : specialKeys.contains k0 = false := by
        cases hcc : specialKeys.contains k0 with
        | false => rfl
        | true => rw [hcc] at hp; simp at hp
      have hdk : isDollarKey k0 = false := by
        cases hcc : isDollarKey k0 with
        | false => rfl
        | true => rw [hcc] at hp; simp at hp
      cases pre with
      | nil =>
        rw [List.nil_append] at hsplit
        have hek : k0 = k := List.head_eq_of_cons_eq hsplit
        subst hek
        simp only [runSpawnLoop, hc, hdk]
        rw [if_neg (by simp), if_neg (by simp), if_pos hk]
        simp
      | cons p pre2 =>
        rw [List.cons_append] at hsplit
        have hep : k0 = p := List.head_eq_of_cons_eq hsplit
        subst hep
        have htail : spawnKeys rest = pre2 ++ k :: post :=
          List.tail_eq_of_cons_eq hsplit
        have hpnone : ttGet? tt k0 = Option.none := hpre k0 (List.mem_cons_self k0 pre2)
        simp only [runSpawnLoop, hc, hdk]
        rw [if_neg (by simp), if_neg (by simp), if_neg (by rw [hpnone]; simp)]
        have hknp : k ≠ k0 := by
          intro hkp
          rw [← hkp] at hpnone
          rw [hpnone] at hk
          simp at hk
        have ihres := ih (tt ++ [(k0, initEntry)]) (added ++ [k0]) pre2 htail
          (fun q hq => by
            have hq1 : ttGet? tt q = Option.none := hpre q (List.mem_cons_of_mem k0 hq)
            have hq2 : q ≠ k0 := by
              intro hqp
              have := (List.nodup_cons.mp hnd).1
              rw [hqp] at hq
              exact this hq
            exact ttGet?_snoc_ne tt k0 q initEntry hq1 hq2)
          (List.nodup_cons.mp hnd).2
          (ttGet?_append_some tt [(k0, initEntry)] k hk)
        rw [ihres]
        simp
    · rw [if_neg hp] at hsplit
      have hskip : runSpawnLoop ((k0, v0) :: rest) tt added = runSpawnLoop rest tt added := by
        simp only [runSpawnLoop]
        by_cases hc : specialKeys.contains k0 = true
        · rw [if_pos hc]
        · rw [if_neg hc]
          have hcf : specialKeys.contains k0 = false := by
            cases h2 : specialKeys.contains k0 with
            | false => rfl
            | true => exact absurd h2 hc
          have hdk : isDollarKey k0 = true := by
            cases hcc : isDollarKey k0 with
            | true => rfl
            | false =>
              exfalso
              apply hp
              rw [hcf, hcc]
              rfl
          rw [if_pos hdk]
      rw [hskip]
      exact ih tt added pre hsplit hpre hnd hk

/-- C10: when run is given a mapping whose spawnable keys (in iteration
order) reach a key k already present in the result table after the fresh
keys pre, it raises KeyOverrideAttemptError with the table already holding
a {state: not-started, value: None} entry for every key of pre, none of
whose threads is ever started (the start loop runs only after a fully
successful insertion loop), so those entries stay not-started. -/
theorem run_override_not_atomic (ob : List (String × PyVal)) (tt : TTable)
    (pre : List String) (k : String) (post : List String)
    (hsplit : spawnKeys ob = pre ++ k :: post)
    (hpre : ∀ p ∈ pre, ttGet? tt p = Option.none)
    (hnd : pre.Nodup)
    (hk : (ttGet? tt k).isSome) :
    tbRun ob tt = (tt ++ pre.map (fun p => (p, initEntry)), Option.some k) := by
  unfold tbRun
  rw [runSpawnLoop_collision k post ob tt [] pre hsplit hpre hnd hk]

theorem run_override_witness :
    tbRun [("a", PyVal.int 1), ("b", PyVal.int 2)]
        [("b", ⟨"done", PyVal.int 9, true⟩)] =
      ([("b", ⟨"done", PyVal.int 9, true⟩), ("a", initEntry)], Option.some "b") := by
  have h := run_override_not_atomic [("a", PyVal.int 1), ("b", PyVal.int 2)]
    [("b", ⟨"done", PyVal.int 9, true⟩)] ["a"] "b" [] rfl
    (by intro p hp; simp at hp; subst hp; rfl)
    (by simp) rfl
  simpa using h

/- ### Dict-operation lemmas -/

theorem dhasKey_eq_frameHas : @dhasKey = @frameHas := rfl

theorem dGet?_eq_frameGet : @dGet? = @frameGet? := rfl

theorem dhasKey_eq_isSome (es : List (String × PyVal)) (k : String) :
    dhasKey es k = (dGet? es k).isSome := frameHas_eq_isSome es k

theorem dhasKey_iff_mem (es : List (String × PyVal)) (k : String) :
    dhasKey es k = true ↔ k ∈ es.map (fun e => e.1) := by
  unfold dhasKey
  rw [List.any_eq_true]
  constructor
  · rintro ⟨e, he, hbeq⟩
    exact List.mem_map.mpr ⟨e, he, beq_iff_eq.mp hbeq⟩
  · intro hm
    rcases List.mem_map.mp hm with ⟨e, he, hk⟩
    exact ⟨e, he, beq_iff_eq.mpr hk⟩

theorem dhasKey_false_of_not_mem (es : List (String × PyVal)) (k : String)
    (h : k ∉ es.map (fun e => e.1)) : dhasKey es k = false := by
  cases hc : dhasKey es k with
  | false => rfl
  | true => exact absurd ((dhasKey_iff_mem es k).mp hc) h

theorem dGet?_eq_none_of_not_mem (es : List (String × PyVal)) (k : String)
    (h : k ∉ es.map (fun e => e.1)) : dGet? es k = Option.none := by
  have := dhasKey_false_of_not_mem es k h
  rw [dhasKey_eq_isSome] at this
  cases hg : dGet? es k with
  | none => rfl
  | some v => rw [hg] at this; simp at this

theorem dGet?_append (l1 l2 : List (String × PyVal)) (k : String) :
    dGet? (l1 ++ l2) k =
      match dGet? l1 k with
      | Option.some v => Option.some v
      | Option.none => dGet? l2 k := by
  unfold dGet?
  rw [List.find?_append]
  cases h : (l1.find? (fun e => e.1 == k)) with
  | none => simp [Option.or]
  | some e => simp [Option.or]

theorem dDel_eq_self_of_not_mem (es : List (String × PyVal)) (k : String)
    (h : k ∉ es.map (fun e => e.1)) : dDel es k = es := by
  unfold dDel
  rw [List.filter_eq_self]
  intro e he
  have : e.1 ≠ k := by
    intro hek
    exact h (List.mem_map.mpr ⟨e, he, hek⟩)
  simp [this]

theorem dDel_append (l1 l2 : List (String × PyVal)) (k : String) :
    dDel (l1 ++ l2) k = dDel l1 k ++ dDel l2 k := by
  simp [dDel, List.filter_append]

theorem dSet_append_of_not_has (es : List (String × PyVal)) (k : String) (v : PyVal)
    (h : dhasKey es k = false) : dSet es k v = es ++ [(k, v)] := by
  unfold dSet
  rw [h]
  simp

theorem keyColon_inj (key a b : String)
    (h : key ++ ":" ++ a = key ++ ":" ++ b) : a = b := by
  have hd := congrArg String.data h
  rw [String.data_append, String.data_append] at hd
  exact String.ext (List.append_cancel_left hd)

/- ### C4: $sub renaming happens on key presence, not truthiness -/

/-- The directive entries of a node, in order. -/
def dollarEntries (es : List (String × PyVal)) : List (String × PyVal) :=
  es.filter (fun e => isDollarKey e.1)

/-- The non-directive entries renamed under the parent key, in order. -/
def renamedEntries (key : String) (es : List (String × PyVal)) : List (String × PyVal) :=
  (es.filter (fun e => !(isDollarKey e.1))).map (fun e => (key ++ ":" ++ e.1, e.2))

theorem subRenameLoop_split (key : String) :
    ∀ (rest dAcc rAcc : List (String × PyVal)),
      (rest.map (fun e => e.1)).Nodup →
      (∀ e ∈ rest, e.1 ∉ dAcc.map (fun x => x.1)) →
      (∀ e ∈ rest, e.1 ∉ rAcc.map (fun x => x.1)) →
      (∀ e ∈ rest, isDollarKey e.1 = false →
        (key ++ ":" ++ e.1) ∉ dAcc.map (fun x => x.1) ∧
        (key ++ ":" ++ e.1) ∉ rest.map (fun x => x.1) ∧
        (key ++ ":" ++ e.1) ∉ rAcc.map (fun x => x.1)) →
      subRenameLoop key (rest.map (fun e => e.1)) (dAcc ++ rest ++ rAcc) =
        dAcc ++ dollarEntries rest ++ rAcc ++ renamedEntries key rest := by
  intro rest
  induction rest with
  | nil =>
    intro dAcc rAcc _ _ _ _
    simp [subRenameLoop, dollarEntries, renamedEntries]
  | cons e0 rest2 ih =>
    obtain ⟨k0, v0⟩ := e0
    intro dAcc rAcc hnd h2 h3 h4
    rw [List.map_cons] at hnd
    have hndc := List.nodup_cons.mp hnd
    have hk0nr2 : k0 ∉ rest2.map (fun x => x.1) := hndc.1
    simp only [List.map_cons]
    cases hD : isDollarKey k0 with
    | true =>
      rw [show subRenameLoop key (k0 :: rest2.map (fun e => e.1)) (dAcc ++ (k0, v0) :: rest2 ++ rAcc) =
            subRenameLoop key (rest2.map (fun e => e.1)) (dAcc ++ (k0, v0) :: rest2 ++ rAcc) by
        simp [subRenameLoop, hD]]
      have hre : dAcc ++ (k0, v0) :: rest2 ++ rAcc = (dAcc ++ [(k0, v0)]) ++ rest2 ++ rAcc := by
        simp
      rw [hre]
      rw [ih (dAcc ++ [(k0, v0)]) rAcc hndc.2
        (fun e he => by
          rw [List.map_append]
          intro hm
          rcases List.mem_append.mp hm with hm1 | hm1
          · exact h2 e (List.mem_cons_of_mem _ he) hm1
          · simp at hm1
            exact hk0nr2 (hm1 ▸ List.mem_map.mpr ⟨e, he, rfl⟩))
        (fun e he => h3 e (List.mem_cons_of_mem _ he))
        (fun e he hDe => by
          rcases h4 e (List.mem_cons_of_mem _ he) hDe with ⟨ha, hb, hc⟩
          refine ⟨?_, ?_, hc⟩
          · rw [List.map_append]
            intro hm
            rcases List.mem_append.mp hm with hm1 | hm1
            · exact ha hm1
            · simp at hm1
              apply hb
              rw [hm1]
              simp
          · intro hm
            apply hb
            simp only [List.map_cons]
            exact List.mem_cons_of_mem _ hm)]
      simp [dollarEntries, renamedEntries, List.filter_cons, hD]
    | false =>
      have hrk := h4 (k0, v0) (List.mem_cons_self _ _) hD
      have hk0d : k0 ∉ dAcc.map (fun x => x.1) := h2 (k0, v0) (List.mem_cons_self _ _)
      have hk0r : k0 ∉ rAcc.map (fun x => x.1) := h3 (k0, v0) (List.mem_cons_self _ _)
      have hrkk0 : (key ++ ":" ++ k0) ≠ k0 := by
        intro hq
        apply hrk.2.1
        rw [hq]
        simp
      -- the lookup b[k0] finds v0
      have hget : dGet? (dAcc ++ (k0, v0) :: rest2 ++ rAcc) k0 = Option.some v0 := by
        rw [List.append_assoc, dGet?_append, dGet?_eq_none_of_not_mem dAcc k0 hk0d]
        simp [dGet?, List.find?_cons]
      -- the renamed key is fresh so dSet appends
      have hfresh : dhasKey (dAcc ++ (k0, v0) :: rest2 ++ rAcc) (key ++ ":" ++ k0) = false := by
        apply dhasKey_false_of_not_mem
        intro hm
        rw [List.append_assoc, List.map_append] at hm
        rcases List.mem_append.mp hm with hm1 | hm1
        · exact hrk.1 hm1
        · rw [List.map_append] at hm1
          rcases List.mem_append.mp hm1 with hm2 | hm2
          · exact hrk.2.1 (by simpa using hm2)
          · exact hrk.2.2 hm2
      -- deleting k0 removes exactly the processed entry
      have hdel : dDel ((dAcc ++ (k0, v0) :: rest2 ++ rAcc) ++ [(key ++ ":" ++ k0, v0)]) k0 =
          dAcc ++ rest2 ++ (rAcc ++ [(key ++ ":" ++ k0, v0)]) := by
        rw [dDel_append, dDel_append, dDel_append]
        rw [dDel_eq_self_of_not_mem dAcc k0 hk0d]
        rw [dDel_eq_self_of_not_mem rAcc k0 hk0r]
        rw [show dDel ((k0, v0) :: rest2) k0 = dDel rest2 k0 by simp [dDel, List.filter_cons]]
        rw [dDel_eq_self_of_not_mem rest2 k0 hk0nr2]
        rw [dDel_eq_self_of_not_mem [(key ++ ":" ++ k0, v0)] k0 (by simpa using Ne.symm hrkk0)]
        simp
      rw [show subRenameLoop key (k0 :: rest2.map (fun e => e.1)) (dAcc ++ (k0, v0) :: rest2 ++ rAcc) =
            subRenameLoop key (rest2.map (fun e => e.1))
              (dDel (dSet (dAcc ++ (k0, v0) :: rest2 ++ rAcc) (key ++ ":" ++ k0)
                ((dGet? (dAcc ++ (k0, v0) :: rest2 ++ rAcc) k0).getD PyVal.none)) k0) by
        simp [subRenameLoop, hD]]
      rw [hget]
      rw [dSet_append_of_not_has _ _ _ hfresh]
      simp only [Option.getD_some]
      rw [hdel]
      rw [ih dAcc (rAcc ++ [(key ++ ":" ++ k0, v0)]) hndc.2
        (fun e he => h2 e (List.mem_cons_of_mem _ he))
        (fun e he => by
          rw [List.map_append]
          intro hm
          rcases List.mem_append.mp hm with hm1 | hm1
          · exact h3 e (List.mem_cons_of_mem _ he) hm1
          · simp at hm1
            rcases h4 (k0, v0) (List.mem_cons_self _ _) hD with ⟨_, hb, _⟩
            apply hb
            rw [← hm1]
            simp only [List.map_cons]
            exact List.mem_cons_of_mem _ (List.mem_map.mpr ⟨e, he, rfl⟩))
        (fun e he hDe => by
          rcases h4 e (List.mem_cons_of_mem _ he) hDe with ⟨ha, hb, hc⟩
          refine ⟨ha, ?_, ?_⟩
          · intro hm
            apply hb
            simp only [List.map_cons]
            exact List.mem_cons_of_mem _ hm
          · rw [List.map_append]
            intro hm
            rcases List.mem_append.mp hm with hm1 | hm1
            · exact hc hm1
            · simp at hm1
              have heq : e.1 = k0 := keyColon_inj key e.1 k0 hm1
              apply hk0nr2
              rw [← heq]
              exact List.mem_map.mpr ⟨e, he, rfl⟩)]
      simp [dollarEntries, renamedEntries, List.filter_cons, hD]

/-- C4 (amended): a Branch processed by the step processor has its
non-directive keys k renamed to key:k if and only if it CONTAINS a $sub
key — of any value, truthy or falsy, since _dhas tests presence — the
directive entries being kept in place and the renamed entries appended in
their original relative order. -/
theorem sub_renames_on_presence (key : String) (es : List (String × PyVal))
    (hnd : (es.map (fun e => e.1)).Nodup)
    (hfresh : ∀ e ∈ es, isDollarKey e.1 = false →
      (key ++ ":" ++ e.1) ∉ es.map (fun x => x.1)) :
    subRename key (.dict es) =
      (if dhasKey es "$sub" then .dict (dollarEntries es ++ renamedEntries key es)
       else .dict es) := by
  simp only [subRename]
  by_cases h : dhasKey es "$sub"
  · rw [if_pos h, if_pos h]
    have hsp := subRenameLoop_split key es [] [] hnd
      (by intro e he; simp) (by intro e he; simp)
      (by intro e he hD; exact ⟨by simp, hfresh e he hD, by simp⟩)
    simpa using hsp
  · rw [if_neg h, if_neg h]

theorem sub_renames_on_presence_witness :
    subRename "p" (.dict [("a", PyVal.int 1), ("$sub", PyVal.int 0)]) =
      .dict (dollarEntries [("a", PyVal.int 1), ("$sub", PyVal.int 0)] ++
        renamedEntries "p" [("a", PyVal.int 1), ("$sub", PyVal.int 0)]) := by
  have h := sub_renames_on_presence "p" [("a", PyVal.int 1), ("$sub", PyVal.int 0)]
    (by simp) (by decide)
  simpa using h

/-- C4 counterexample: a Branch whose $sub value is the falsy 0 still has
its non-directive key x renamed to p:x, contradicting the claim that a
falsy $sub leaves the keys unrenamed. -/
theorem sub_rename_falsy_sub_cex :
    subRename "p" (.dict [("$sub", PyVal.int 0), ("x", PyVal.int 1)]) =
      .dict [("$sub", PyVal.int 0), ("p:x", PyVal.int 1)] ∧
    pyTruthy (PyVal.int 0) = false ∧
    PyVal.dict [("$sub", PyVal.int 0), ("p:x", PyVal.int 1)] ≠
      PyVal.dict [("$sub", PyVal.int 0), ("x", PyVal.int 1)] := by
  refine ⟨rfl, rfl, ?_⟩
  intro h
  simp at h

/- ### C5: scalar nodes -/

/-- C5 (amended): every NON-NULL scalar — not a dict, not a list, not
callable, not an @-string — is returned verbatim: the worker ends with
state done and value v, and a subsequent wait poll on the key succeeds at
once.  (None is excluded: see the counterexample.) -/
theorem scalar_identity (env : Env) (defThrottle : PyVal) (ak fuel : Nat)
    (ts : TStack) (key : String) (v : PyVal)
    (h1 : isDictB v = false) (h2 : isListB v = false)
    (h3 : isCallableB v = false) (h4 : isAtStrB v = false)
    (h5 : isNoneB v = false) :
    workerOutcome env defThrottle ak (fuel + 1) v ts key = ⟨"done", v, true⟩ ∧
    pollOnce [(key, ⟨"done", v, true⟩)] [key] = Except.ok true := by
  constructor
  · cases v with
    | none => simp [isNoneB] at h5
    | dict es => simp [isDictB] at h1
    | list xs => simp [isListB] at h2
    | callable i => simp [isCallableB] at h3
    | bool b => rfl
    | int n => rfl
    | str s =>
      unfold workerOutcome processStepCore
      simp only [isAtStrB] at h4
      simp [isNoneB, dhas, subRename, findMatchfunc, baseMatches, downFind,
        isDictB, isListB, frameHas, specialLiterals, isAtStrB, h4, tworker, paramFrame,
        startedEntry]
  · simp [pollOnce, ttGet?, terminalState]

theorem scalar_identity_witness :
    workerOutcome wEnv (PyVal.int 30) 0 1 (PyVal.int 5) [[]] "k" =
      ⟨"done", PyVal.int 5, true⟩ ∧
    pollOnce [("k", ⟨"done", PyVal.int 5, true⟩)] ["k"] = Except.ok true :=
  scalar_identity wEnv (PyVal.int 30) 0 0 [[]] "k" (PyVal.int 5) rfl rfl rfl rfl rfl

/-- C5 counterexample: the null scalar, included by the claim, does NOT
come back done with value null: _process_step(None) skips its loop and
hits the UnboundLocalError of returning the never-assigned val, so the
worker marks the entry error. -/
theorem scalar_null_cex :
    workerOutcome wEnv (PyVal.int 30) 0 1 PyVal.none [[]] "n" =
      ⟨"error", PyVal.none, true⟩ ∧
    isDictB PyVal.none = false ∧ isListB PyVal.none = false ∧
    isCallableB PyVal.none = false ∧ isAtStrB PyVal.none = false ∧
    "error" ≠ "done" := by
  refine ⟨rfl, rfl, rfl, rfl, rfl, by decide⟩

/- ### C7: the foreach fan-out -/

/-- Claim-side clone of the parent node for one fan-out item: parent
entries with $foreach and $throttle removed, then $throttle inherited from
the top name-stack frame when present there, then $param bound to the
item. -/
def specChild (es : List (String × PyVal)) (top : Frame) (item : PyVal) : List (String × PyVal) :=
  es.filter (fun e => !(e.1 == "$foreach") && !(e.1 == "$throttle")) ++
  (if frameHas top "$throttle" then
    [("$throttle", (frameGet? top "$throttle").getD PyVal.none)]
  else []) ++
  [("$param", item)]

/-- The fan-out key for index i among n items: the auto-key prefix
foreach:_{id} and the index zero-padded to the width len(str(n)). -/
def specFanKey (newId : Nat) (n i : Nat) : String :=
  "foreach:_" ++ toString newId ++ ":" ++ padZero (toString n).length i

/-- Claim-side fan-out mapping: the wrapper directives $throttle (the
node's own, else the braid default) and $sub: 1, followed by one renamed
clone per item index. -/
def specFanout (newId : Nat) (defThrottle : PyVal) (es : List (String × PyVal))
    (top : Frame) (items : List PyVal) : List (String × PyVal) :=
  [("$throttle", if dhasKey es "$throttle" then (dGet? es "$throttle").getD PyVal.none else defThrottle),
   ("$sub", PyVal.int 1)] ++
  (List.range items.length).map (fun i =>
    (specFanKey newId items.length i, PyVal.dict (specChild es top (items.getD i PyVal.none))))

theorem foreachChild_eq_specChild (es : List (String × PyVal)) (top : Frame) (item : PyVal)
    (hparam : "$param" ∉ es.map (fun e => e.1)) :
    foreachChild es top item = specChild es top item := by
  have hb1 : (if dhasKey es "$throttle" then dDel es "$throttle" else es) =
      es.filter (fun e => !(e.1 == "$throttle")) := by
    by_cases h : dhasKey es "$throttle"
    · rw [if_pos h]; rfl
    · rw [if_neg h]
      symm
      apply List.filter_eq_self.mpr
      intro e he
      have hne : e.1 ≠ "$throttle" := by
        intro hek
        apply h
        rw [dhasKey_iff_mem]
        exact List.mem_map.mpr ⟨e, he, hek⟩
      simp [hne]
  have hthrotF1 : dhasKey (es.filter (fun e => !(e.1 == "$throttle"))) "$throttle" = false := by
    apply dhasKey_false_of_not_mem
    intro hm
    rcases List.mem_map.mp hm with ⟨e, he, hk⟩
    have h2 := (List.mem_filter.mp he).2
    rw [hk] at h2
    simp at h2
  have hparamF1 : "$param" ∉ (es.filter (fun e => !(e.1 == "$throttle"))).map (fun e => e.1) := by
    intro hm
    rcases List.mem_map.mp hm with ⟨e, he, hk⟩
    exact hparam (List.mem_map.mpr ⟨e, (List.mem_filter.mp he).1, hk⟩)
  have hdelF1 : dDel (es.filter (fun e => !(e.1 == "$throttle"))) "$foreach" =
      es.filter (fun e => !(e.1 == "$foreach") && !(e.1 == "$throttle")) := by
    unfold dDel
    exact List.filter_filter _ es
  simp only [foreachChild, specChild, hb1]
  by_cases ht : frameHas top "$throttle"
  · rw [if_pos ht, if_pos ht]
    rw [dSet_append_of_not_has _ _ _ hthrotF1]
    rw [dSet_append_of_not_has _ _ _ (by
      apply dhasKey_false_of_not_mem
      rw [List.map_append]
      intro hm
      rcases List.mem_append.mp hm with hm1 | hm1
      · exact hparamF1 hm1
      · simp at hm1)]
    rw [dDel_append, dDel_append, hdelF1]
    simp [dDel]
  · rw [if_neg ht, if_neg ht]
    rw [dSet_append_of_not_has _ _ _ (dhasKey_false_of_not_mem _ _ hparamF1)]
    rw [dDel_append, hdelF1]
    simp [dDel]

/-- C7 (amended): the foreach handler over n materialized items returns
{$replace: m} where m opens with $throttle (the node's own value, else the
braid default) and $sub: 1, then maps, for each index i, the key
"foreach:_{id}:{i zero-padded to width len(str(n))}" to the clone of the
parent node with $foreach removed, $param set to item i, and $throttle
inherited from the top name-stack frame when present there.  (The claim's
prefix "foreach:{id}" misses the underscore of _autokey, and its width
computed as the ceiling of log10 n differs from len(str(n)) at powers of
ten: see the counterexample.) -/
theorem foreach_fanout (newId : Nat) (defThrottle : PyVal)
    (es : List (String × PyVal)) (items : List PyVal) (ts : TStack) (top : Frame)
    (hf : dGet? es "$foreach" = Option.some (.list items))
    (htop : ts.getLast? = Option.some top)
    (hparam : "$param" ∉ es.map (fun e => e.1)) :
    handle_base_foreach newId defThrottle (.dict es) ts =
      Except.ok (.dict [("$replace", .dict (specFanout newId defThrottle es top items))]) := by
  have hchild : ∀ item, foreachChild es top item = specChild es top item :=
    fun item => foreachChild_eq_specChild es top item hparam
  simp only [handle_base_foreach, hf, htop]
  simp only [specFanout, specFanKey, hchild]
  rfl

def foreachWitnessArg : List (String × PyVal) :=
  [("$foreach", .list [PyVal.str "x"]), ("q", PyVal.int 7)]

theorem foreach_fanout_witness :
    handle_base_foreach 2 (PyVal.int 30) (.dict foreachWitnessArg)
        [[("$throttle", PyVal.int 3)]] =
      Except.ok (.dict [("$replace", .dict (specFanout 2 (PyVal.int 30) foreachWitnessArg
        [("$throttle", PyVal.int 3)] [PyVal.str "x"]))]) :=
  foreach_fanout 2 (PyVal.int 30) foreachWitnessArg [PyVal.str "x"]
    [[("$throttle", PyVal.int 3)]] [("$throttle", PyVal.int 3)] rfl rfl
    (by simp [foreachWitnessArg])

/-- Extract the mapping emitted under $replace by a handler result. -/
def replacePayload (r : Except Err PyVal) : List (String × PyVal) :=
  match r with
  | Except.ok (.dict [(_, .dict m)]) => m
  | _ => []

def foreachCexNode : PyVal :=
  .dict [("$foreach", .list [PyVal.int 0, PyVal.int 1, PyVal.int 2, PyVal.int 3,
    PyVal.int 4, PyVal.int 5, PyVal.int 6, PyVal.int 7, PyVal.int 8, PyVal.int 9])]

/-- C7 counterexample: fanning out 10 items with counter id 1, the
mapping contains the key "foreach:_1:00" — prefix "foreach:_1", indices
padded to width len(str(10)) = 2 — and does NOT contain "foreach:1:0",
the key the claim predicts from prefix "foreach:{id}" and width
ceil(log10 10) = 1. -/
theorem foreach_key_format_cex :
    dhasKey (replacePayload (handle_base_foreach 1 (PyVal.int 30) foreachCexNode [[]]))
      "foreach:_1:00" = true ∧
    dhasKey (replacePayload (handle_base_foreach 1 (PyVal.int 30) foreachCexNode [[]]))
      ("foreach:" ++ toString 1 ++ ":" ++ padZero (Nat.clog 10 10) 0) = false ∧
    Nat.clog 10 10 = 1 ∧ (toString (10 : Nat)).length = 2 := by
  have hclog : Nat.clog 10 10 = 1 := Nat.clog_eq_one (by norm_num) (by norm_num)
  refine ⟨rfl, ?_, hclog, rfl⟩
  rw [hclog]
  rfl

/- ### C8: convergence of the $replace loop on well-formed built-ins -/

theorem dGet?_dDel_ne (es : List (String × PyVal)) (k k2 : String) (h : k2 ≠ k) :
    dGet? (dDel es k) k2 = dGet? es k2 := by
  induction es with
  | nil => rfl
  | cons e rest ih =>
    cases hb : (e.1 == k) with
    | true =>
      have he2 : (e.1 == k2) = false := by
        rw [beq_iff_eq.mp hb]
        exact beq_eq_false_iff_ne.mpr (Ne.symm h)
      simp only [dGet?, dDel, List.filter_cons, hb] at ih ⊢
      simp only [Bool.not_true, Bool.false_eq_true, if_neg]
      simpa [List.find?_cons, he2] using ih
    | false =>
      cases he2 : (e.1 == k2) with
      | true => simp [dGet?, dDel, List.filter_cons, hb, List.find?_cons, he2]
      | false =>
        simp only [dGet?, dDel, List.filter_cons, hb] at ih ⊢
        simpa [List.find?_cons, he2] using ih

theorem dGet?_map_set_ne (es : List (String × PyVal)) (k k2 : String) (v : PyVal) (h : k2 ≠ k) :
    dGet? (es.map (fun e => if e.1 == k then (k, v) else e)) k2 = dGet? es k2 := by
  induction es with
  | nil => rfl
  | cons e rest ih =>
    cases hb : (e.1 == k) with
    | true =>
      have hkk2 : (k == k2) = false := beq_eq_false_iff_ne.mpr (Ne.symm h)
      have he2 : (e.1 == k2) = false := by
        rw [beq_iff_eq.mp hb]
        exact hkk2
      simp only [dGet?, List.map_cons, hb, if_true] at ih ⊢
      simpa [List.find?_cons, hkk2, he2] using ih
    | false =>
      have hbp : ¬(e.1 = k) := by simpa using hb
      cases he2 : (e.1 == k2) with
      | true =>
        have hbn : ¬((e.1 == k) = true) := by simp [hbp]
        unfold dGet?
        rw [List.map_cons, if_neg hbn, List.find?_cons, List.find?_cons, he2]
      | false =>
        have he2p : ¬(e.1 = k2) := by simpa using he2
        simp only [dGet?, List.map_cons] at ih ⊢
        simpa [List.find?_cons, hbp, he2p] using ih

theorem dGet?_dSet_ne (es : List (String × PyVal)) (k k2 : String) (v : PyVal) (h : k2 ≠ k) :
    dGet? (dSet es k v) k2 = dGet? es k2 := by
  unfold dSet
  by_cases hh : dhasKey es k
  · rw [if_pos hh]
    exact dGet?_map_set_ne es k k2 v h
  · rw [if_neg hh]
    rw [dGet?_append]
    cases hg : dGet? es k2 with
    | some w => rfl
    | none =>
      simp only []
      unfold dGet?
      have : (k == k2) = false := beq_eq_false_iff_ne.mpr (Ne.symm h)
      simp [List.find?_cons, this]

theorem colon_ne (p q d : String) (hd : ':' ∉ d.data) : (p ++ ":" ++ q) ≠ d := by
  intro h
  apply hd
  rw [← h]
  rw [String.data_append, String.data_append]
  apply List.mem_append_left
  apply List.mem_append_right
  simp [String.data]

/-- The $sub rename loop never touches entries whose key is a
colon-free directive key (the renamed keys it writes all contain a colon,
and the keys it deletes are non-directive). -/
theorem subRenameLoop_get_dollar (key d : String)
    (hd1 : isDollarKey d = true) (hd2 : ':' ∉ d.data) :
    ∀ (ks : List String) (b : List (String × PyVal)),
      dGet? (subRenameLoop key ks b) d = dGet? b d := by
  intro ks
  induction ks with
  | nil => intro b; rfl
  | cons k rest ih =>
    intro b
    by_cases hk : isDollarKey k = true
    · rw [show subRenameLoop key (k :: rest) b = subRenameLoop key rest b by
        simp [subRenameLoop, hk]]
      exact ih b
    · have hkf : isDollarKey k = false := by
        cases hb : isDollarKey k with
        | false => rfl
        | true => exact absurd hb hk
      rw [show subRenameLoop key (k :: rest) b =
          subRenameLoop key rest (dDel (dSet b (key ++ ":" ++ k) ((dGet? b k).getD PyVal.none)) k) by
        simp [subRenameLoop, hkf]]
      rw [ih]
      rw [dGet?_dDel_ne _ _ _ (by
        intro hdk
        rw [hdk] at hd1
        rw [hkf] at hd1
        simp at hd1)]
      exact dGet?_dSet_ne _ _ _ _ (Ne.symm (colon_ne key k d hd2))

theorem isDollarKey_append (p q : String) (h : p.data ≠ []) :
    isDollarKey (p ++ q) = isDollarKey p := by
  unfold isDollarKey
  rw [String.data_append]
  cases hd : p.data with
  | nil => exact absurd hd h
  | cons c cs => simp

theorem isDollarKey_fanKey (m : Nat) (w i : Nat) :
    isDollarKey (autokey ["foreach:"] m ++ ":" ++ padZero w i) = false := by
  rw [isDollarKey_append _ _ (by
    rw [String.data_append]
    simp [autokey, String.data_append, String.data])]
  rw [isDollarKey_append _ _ (by
    simp [autokey, String.data_append, String.data])]
  rw [show autokey ["foreach:"] m = "foreach:_" ++ toString m from rfl]
  rw [isDollarKey_append _ _ (by simp [String.data])]
  rfl

theorem dhasKey_append (l1 l2 : List (String × PyVal)) (k : String) :
    dhasKey (l1 ++ l2) k = (dhasKey l1 k || dhasKey l2 k) := by
  simp [dhasKey, List.any_append]

theorem dhasKey_fan_false (n : Nat) (fk : Nat → String) (g : Nat → PyVal) (d : String)
    (hfk : ∀ i, fk i ≠ d) :
    dhasKey ((List.range n).map (fun i => (fk i, g i))) d = false := by
  rw [dhasKey, List.any_eq_false]
  intro x hx
  rcases List.mem_map.mp hx with ⟨i, _, rfl⟩
  simp [hfk i]

/-- subRename keeps any colon-free directive entry untouched. -/
theorem subRename_dGet_dollar (key d : String) (es : List (String × PyVal))
    (hd1 : isDollarKey d = true) (hd2 : ':' ∉ d.data) :
    ∃ es2, subRename key (.dict es) = .dict es2 ∧ dGet? es2 d = dGet? es d := by
  by_cases hs : dhasKey es "$sub"
  · exact ⟨subRenameLoop key (es.map (fun e => e.1)) es, by simp [subRename, hs],
      subRenameLoop_get_dollar key d hd1 hd2 _ es⟩
  · exact ⟨es, by simp [subRename, hs], rfl⟩

theorem findMatch_base_foreach (m : List (String × PyVal)) (h : dhasKey m "$foreach" = true) :
    findMatchfunc baseMatches (.dict m) = Except.ok HFun.hforeach := by
  unfold findMatchfunc baseMatches
  simp [downFind, dhas, isDictB, h]

theorem findMatch_base_object (m : List (String × PyVal))
    (h1 : dhasKey m "$foreach" = false) (h2 : dhasKey m "$run" = false)
    (h3 : dhasKey m "$wait" = false) :
    findMatchfunc baseMatches (.dict m) = Except.ok HFun.object := by
  unfold findMatchfunc baseMatches
  simp [downFind, dhas, isDictB, isListB, h1, h2, h3]

/-- One unfolding of the step loop body for a non-None node. -/
theorem core_step_eq (env : Env) (dT : PyVal) (ak : Nat) (fuel : Nat) (a : PyVal)
    (tstack : TStack) (key : String) (lv : Option PyVal) (hn : isNoneB a = false) :
    processStepCore env dT ak (fuel + 1) (Job.step a tstack key lv) =
      (match paramFrame a tstack with
      | Except.error e => Except.error e
      | Except.ok ts =>
        match findMatchfunc baseMatches (subRename key a) with
        | Except.error e => Except.error e
        | Except.ok h =>
          match (match h with
                  | HFun.ignore => Except.ok (subRename key a)
                  | HFun.literals => Except.ok (specialLiterals (subRename key a))
                  | HFun.object => env.objectRun (subRename key a) ts key
                  | HFun.hlist =>
                    (match subRename key a with
                      | .list xs => processStepCore env dT ak fuel
                          (Job.chain xs (ts ++ [[("$result", PyVal.none)]]) key)
                      | _ => Except.error Err.typeErr)
                  | HFun.hwait => handleWait env (subRename key a) ts
                  | HFun.hrun => handleRun env (subRename key a) ts
                  | HFun.hforeach => handle_base_foreach (ak + 1) dT (subRename key a) ts : Except Err PyVal) with
          | Except.error e => Except.error e
          | Except.ok val =>
            if dhas val "$replace" then
              processStepCore env dT ak fuel
                (Job.step (match val with
                    | .dict es => (dGet? es "$replace").getD PyVal.none
                    | _ => PyVal.none) tstack key (Option.some val))
            else Except.ok val) := by
  have h0 : processStepCore env dT ak (fuel + 1) (Job.step a tstack key lv) =
      (if isNoneB a = true then
        (match lv with
          | Option.some r => Except.ok r
          | Option.none => Except.error Err.unboundLocal)
      else
      match paramFrame a tstack with
      | Except.error e => Except.error e
      | Except.ok ts =>
        match findMatchfunc baseMatches (subRename key a) with
        | Except.error e => Except.error e
        | Except.ok h =>
          match (match h with
                  | HFun.ignore => Except.ok (subRename key a)
                  | HFun.literals => Except.ok (specialLiterals (subRename key a))
                  | HFun.object => env.objectRun (subRename key a) ts key
                  | HFun.hlist =>
                    (match subRename key a with
                      | .list xs => processStepCore env dT ak fuel
                          (Job.chain xs (ts ++ [[("$result", PyVal.none)]]) key)
                      | _ => Except.error Err.typeErr)
                  | HFun.hwait => handleWait env (subRename key a) ts
                  | HFun.hrun => handleRun env (subRename key a) ts
                  | HFun.hforeach => handle_base_foreach (ak + 1) dT (subRename key a) ts : Except Err PyVal) with
          | Except.error e => Except.error e
          | Except.ok val =>
            if dhas val "$replace" then
              processStepCore env dT ak fuel
                (Job.step (match val with
                    | .dict es => (dGet? es "$replace").getD PyVal.none
                    | _ => PyVal.none) tstack key (Option.some val))
            else Except.ok val) := rfl
  rw [h0, hn]
  simp

theorem ne_of_isDollarKey (a b : String)
    (ha : isDollarKey a = false) (hb2 : isDollarKey b = true) : a ≠ b := by
  intro h
  rw [h] at ha
  rw [ha] at hb2
  exact absurd hb2 (by simp)

/-- Liveness and shape assumptions on the oracled effects, under which the
$replace loop can reach a terminal value: user callables and spawned
object evaluations return without faking a $replace node, barriers return,
and a truthy $result in the stack is not a $replace node. -/
structure Benign (env : Env) (ts : TStack) : Prop where
  call_ok : ∀ i a ts2, ∃ v, env.call i a ts2 = Except.ok v ∧ dhas v "$replace" = false
  obj_ok : ∀ a ts2 k, ∃ v, env.objectRun a ts2 k = Except.ok v ∧ dhas v "$replace" = false
  wait_ok : ∀ ks, env.waitCheck ks = Except.ok ()
  result_ok : ∀ v, tsGetItem ts "$result" = Option.some v → pyTruthy v = true →
    dhas v "$replace" = false

/-- A well-formed built-in node in the sense of the claim: a literal
@-string, a callable, or a Branch carrying $foreach over a materialized
item list (carrying no $param of its own). -/
def wellFormedBuiltin (a : PyVal) : Prop :=
  (∃ s, a = .str s ∧ isAtStrB (.str s) = true) ∨
  (∃ i, a = .callable i) ∨
  (∃ es items, a = .dict es ∧ dGet? es "$foreach" = Option.some (.list items) ∧
    dhasKey es "$param" = false)

theorem object_step_terminates (env : Env) (dT : PyVal) (ak : Nat)
    (ts : TStack) (key : String) (hb : Benign env ts)
    (ret : List (String × PyVal)) (lv : Option PyVal)
    (hparamRet : dhasKey ret "$param" = false)
    (hforeachRet : dhasKey ret "$foreach" = false)
    (hrunRet : dhasKey ret "$run" = false)
    (hwaitRet : dhasKey ret "$wait" = false) :
    ∃ v, processStepCore env dT ak 3 (Job.step (.dict ret) ts key lv) = Except.ok v := by
  have hpf2 : paramFrame (.dict ret) ts = Except.ok ts := by
    unfold paramFrame
    rw [show dhas (.dict ret) "$param" = dhasKey ret "$param" from rfl, hparamRet]
    simp
  rw [show (3 : Nat) = 2 + 1 from rfl, core_step_eq env dT ak 2 (.dict ret) ts key lv rfl]
  rw [hpf2]
  by_cases hs : dhasKey ret "$sub"
  · have hsubeq : subRename key (.dict ret) =
        .dict (subRenameLoop key (ret.map (fun e => e.1)) ret) := by
      rw [show subRename key (.dict ret) =
        (if dhasKey ret "$sub" then PyVal.dict (subRenameLoop key (ret.map (fun e => e.1)) ret)
         else .dict ret) from rfl, if_pos hs]
    have hpres : ∀ d, isDollarKey d = true → ':' ∉ d.data →
        dhasKey (subRenameLoop key (ret.map (fun e => e.1)) ret) d = dhasKey ret d := by
      intro d h1 h2
      rw [dhasKey_eq_isSome, dhasKey_eq_isSome, subRenameLoop_get_dollar key d h1 h2]
    simp only [hsubeq]
    rw [findMatch_base_object _
      ((hpres "$foreach" rfl (by decide)).trans hforeachRet)
      ((hpres "$run" rfl (by decide)).trans hrunRet)
      ((hpres "$wait" rfl (by decide)).trans hwaitRet)]
    obtain ⟨v, ho, hnr⟩ := hb.obj_ok (PyVal.dict (subRenameLoop key (ret.map (fun e => e.1)) ret)) ts key
    rw [ho]
    exact ⟨v, by simp [hnr]⟩
  · have hsubeq : subRename key (.dict ret) = .dict ret := by
      rw [show subRename key (.dict ret) =
        (if dhasKey ret "$sub" then PyVal.dict (subRenameLoop key (ret.map (fun e => e.1)) ret)
         else .dict ret) from rfl, if_neg hs]
    simp only [hsubeq]
    rw [findMatch_base_object _ hforeachRet hrunRet hwaitRet]
    obtain ⟨v, ho, hnr⟩ := hb.obj_ok (PyVal.dict ret) ts key
    rw [ho]
    exact ⟨v, by simp [hnr]⟩

theorem fanout_keys_free (throtE : PyVal) (n ak2 kilen : Nat) (g : Nat → PyVal) (d : String)
    (hd : isDollarKey d = true)
    (hw : dhasKey [("$throttle", throtE), ("$sub", PyVal.int 1)] d = false) :
    dhasKey ([("$throttle", throtE), ("$sub", PyVal.int 1)] ++
      (List.range n).map (fun i => (autokey ["foreach:"] ak2 ++ ":" ++ padZero kilen i, g i))) d = false := by
  rw [dhasKey_append, hw, dhasKey_fan_false n _ g d
    (fun i => ne_of_isDollarKey _ _ (isDollarKey_fanKey ak2 kilen i) hd)]
  rfl

/-- C8: for every well-formed built-in node — an @-string literal, a
callable, or a Branch carrying $foreach over materialized items — the
step processor's $replace loop terminates at a terminal value within at
most 3 rewrites: it returns ok within a rewrite budget of 4 loop
iterations (the fuel counts one initial dispatch plus one iteration per
$replace followed).  The Benign hypotheses discharge the oracled effects:
barriers return, user callables and spawned children produce values that
are not themselves $replace nodes. -/
theorem replace_loop_converges (env : Env) (dT : PyVal) (ak : Nat)
    (ts : TStack) (key : String) (a : PyVal)
    (hb : Benign env ts) (hts : (ts.getLast?).isSome)
    (hwf : wellFormedBuiltin a) :
    ∃ v, processStepCore env dT ak 4 (Job.step a ts key Option.none) = Except.ok v := by
  rcases hwf with ⟨s, rfl, hAt⟩ | ⟨i, rfl⟩ | ⟨es, items, rfl, hf, hpar⟩
  · have e1 : processStepCore env dT ak 4 (Job.step (.str s) ts key Option.none) =
        processStepCore env dT ak 3 (Job.step (.dict [("$wait", .list ((atTokens s).map .str))]) ts key
          (Option.some (.dict [("$replace", .dict [("$wait", .list ((atTokens s).map .str))])]))) := by
      rw [show (4 : Nat) = 3 + 1 from rfl,
        core_step_eq env dT ak 3 (.str s) ts key Option.none rfl]
      simp only [show paramFrame (PyVal.str s) ts = Except.ok ts from rfl,
        show subRename key (PyVal.str s) = PyVal.str s from rfl,
        show findMatchfunc baseMatches (PyVal.str s) = Except.ok HFun.literals from rfl,
        specialLiterals]
      rw [if_pos hAt]
      simp [dhas, dhasKey, dGet?]
    rw [e1]
    have e2 : processStepCore env dT ak 3 (Job.step (.dict [("$wait", .list ((atTokens s).map .str))]) ts key
          (Option.some (.dict [("$replace", .dict [("$wait", .list ((atTokens s).map .str))])]))) =
        (match handleWait env (.dict [("$wait", .list ((atTokens s).map .str))]) ts with
          | Except.error e => Except.error e
          | Except.ok val =>
            if dhas val "$replace" then
              processStepCore env dT ak 2
                (Job.step (match val with
                    | .dict es => (dGet? es "$replace").getD PyVal.none
                    | _ => PyVal.none) ts key (Option.some val))
            else Except.ok val) := rfl
    rw [e2]
    rw [show handleWait env (.dict [("$wait", .list ((atTokens s).map .str))]) ts =
        (match env.waitCheck ((atTokens s).map .str) with
          | Except.error e => Except.error e
          | Except.ok _ => Except.ok (match tsGetItem ts "$result" with
              | Option.some r => if pyTruthy r then r else PyVal.none
              | Option.none => PyVal.none)) from rfl]
    rw [hb.wait_ok ((atTokens s).map .str)]
    cases hr : tsGetItem ts "$result" with
    | none =>
      refine ⟨PyVal.none, ?_⟩
      simp [dhas]
    | some r =>
      by_cases htr : pyTruthy r = true
      · have hnr := hb.result_ok r hr htr
        refine ⟨r, ?_⟩
        simp [htr, hnr]
      · refine ⟨PyVal.none, ?_⟩
        simp [htr, dhas]
  · have e1 : processStepCore env dT ak 4 (Job.step (.callable i) ts key Option.none) =
        processStepCore env dT ak 3 (Job.step (.dict [("$run", .callable i)]) ts key
          (Option.some (.dict [("$replace", .dict [("$run", .callable i)])]))) := rfl
    rw [e1]
    have e2 : processStepCore env dT ak 3 (Job.step (.dict [("$run", .callable i)]) ts key
          (Option.some (.dict [("$replace", .dict [("$run", .callable i)])]))) =
        (match env.call i (.dict [("$run", .callable i)]) ts with
          | Except.error e => Except.error e
          | Except.ok val =>
            if dhas val "$replace" then
              processStepCore env dT ak 2
                (Job.step (match val with
                    | .dict es => (dGet? es "$replace").getD PyVal.none
                    | _ => PyVal.none) ts key (Option.some val))
            else Except.ok val) := rfl
    rw [e2]
    obtain ⟨v, hc, hnr⟩ := hb.call_ok i (.dict [("$run", .callable i)]) ts
    rw [hc]
    refine ⟨v, ?_⟩
    simp [hnr]
  · obtain ⟨top, htop⟩ := Option.isSome_iff_exists.mp hts
    obtain ⟨es1, hsub, hpres⟩ := subRename_dGet_dollar key "$foreach" es rfl (by decide)
    have hf1 : dGet? es1 "$foreach" = Option.some (.list items) := by rw [hpres, hf]
    have hhk1 : dhasKey es1 "$foreach" = true := by
      rw [dhasKey_eq_isSome, hf1]
      rfl
    have hpf : paramFrame (.dict es) ts = Except.ok ts := by
      unfold paramFrame
      rw [show dhas (.dict es) "$param" = dhasKey es "$param" from rfl, hpar]
      simp
    have hfe : handle_base_foreach (ak + 1) dT (.dict es1) ts =
        Except.ok (.dict [("$replace", .dict (
          [("$throttle", if dhasKey es1 "$throttle" then (dGet? es1 "$throttle").getD PyVal.none else dT),
           ("$sub", PyVal.int 1)] ++
          (List.range items.length).map (fun i =>
            (autokey ["foreach:"] (ak + 1) ++ ":" ++ padZero (toString items.length).length i,
             PyVal.dict (foreachChild es1 top (items.getD i PyVal.none))))))]) := by
      simp only [handle_base_foreach, hf1, htop]
    rw [show (4 : Nat) = 3 + 1 from rfl,
      core_step_eq env dT ak 3 (.dict es) ts key Option.none rfl]
    rw [hpf]
    simp only [hsub]
    rw [findMatch_base_foreach es1 hhk1]
    rw [hfe]
    simp only [show ∀ (m : List (String × PyVal)),
        dhas (.dict [("$replace", .dict m)]) "$replace" = true from fun m => rfl,
      if_true,
      show ∀ (m : List (String × PyVal)),
        (match PyVal.dict [("$replace", PyVal.dict m)] with
          | .dict es => (dGet? es "$replace").getD PyVal.none
          | _ => PyVal.none) = PyVal.dict m from fun m => rfl]
    exact object_step_terminates env dT ak ts key hb _ _
      (fanout_keys_free _ _ _ _ _ "$param" rfl rfl)
      (fanout_keys_free _ _ _ _ _ "$foreach" rfl rfl)
      (fanout_keys_free _ _ _ _ _ "$run" rfl rfl)
      (fanout_keys_free _ _ _ _ _ "$wait" rfl rfl)

theorem replace_loop_converges_witness :
    ∃ v, processStepCore wEnv (PyVal.int 30) 0 4
      (Job.step (PyVal.str "@a,b") [[]] "k" Option.none) = Except.ok v :=
  replace_loop_converges wEnv (PyVal.int 30) 0 [[]] "k" (PyVal.str "@a,b")
    ⟨fun _ _ _ => ⟨PyVal.int 0, rfl, rfl⟩,
     fun _ _ _ => ⟨PyVal.none, rfl, rfl⟩,
     fun _ => rfl,
     fun _ hv _ => Option.noConfusion hv⟩
    rfl
    (Or.inl ⟨"@a,b", rfl, rfl⟩)
